import Mathlib

/-!
Verification of the transcript segmentation, semantic ranking and video-store
logic of `src/app.py` (culurciello/mytube).

Strings are modelled as `List Char`; Python string operations used by the code
(`strip`, concatenation, `startswith`, membership of whitespace) are embedded
as explicit list functions.  Fragment timestamps (Python floats fed to `//`)
are modelled as rationals with mathematical floor division.  The in-memory
`videos_store` dict is modelled as an association list.
-/

namespace MyTube

/-- Whitespace test used by the embeddings of Python `strip` and `split`. -/
def isSp (c : Char) : Bool := c.isWhitespace

/-- Removal of leading whitespace, as in Python `lstrip`. -/
def stripLead (s : List Char) : List Char := s.dropWhile isSp

/-- Removal of trailing whitespace, as in Python `rstrip`. -/
def stripTrail (s : List Char) : List Char := (s.reverse.dropWhile isSp).reverse

/-- Embedding of Python `str.strip()`. -/
def pstrip (s : List Char) : List Char := stripTrail (stripLead s)

/-- A transcript fragment as delivered by the transcript provider: an entry of
`transcript_data.snippets` in `fetch_transcript` (src/app.py line 41), with a
`start` timestamp (seconds, possibly fractional) and a `text`. -/
structure Fragment where
  start : ℚ
  text : List Char
deriving DecidableEq, Repr

/-- A 30-second segment, as built by `fetch_transcript` (src/app.py lines
37-58): a bucket-floor `start` and the concatenated text. -/
structure Segment where
  start : Int
  text : List Char
deriving DecidableEq, Repr

/-- Kernel-computable form of `int(entry.start // 30) * 30` from src/app.py
lines 42-43: the bucket floor of a timestamp.  Integer `ediv` on the
numerator and denominator computes the mathematical floor of `q / 30`;
`bucketStart_eq_floor` below states exactly that. -/
def bucketStart (q : ℚ) : Int := q.num / ((q.den : Int) * 30) * 30

theorem bucketStart_eq_floor (q : ℚ) : bucketStart q = ⌊q / 30⌋ * 30 := by
  unfold bucketStart
  congr 1
  conv_rhs => rw [← Rat.num_div_den q]
  rw [div_div, show ((q.den : ℚ) * 30) = ((q.den * 30 : ℕ) : ℚ) by push_cast; ring,
    Rat.floor_intCast_div_natCast]
  push_cast
  ring_nf

/-- State of the accumulation loop of `fetch_transcript` (src/app.py lines
37-53): the `current_segment` dict (its `start` and `text` fields) together
with the `segments` list built so far. -/
structure SegState where
  curStart : Int
  curText : List Char
  segments : List Segment
deriving DecidableEq, Repr

/-- One iteration of the `for entry in transcript_data.snippets` loop
(src/app.py lines 41-50): flush the accumulator when the bucket changes and
text has accumulated, then set the start and append `" " + entry.text`. -/
def segStep (st : SegState) (e : Fragment) : SegState :=
  let expected := bucketStart e.start
  let st1 :=
    if expected ≠ st.curStart ∧ st.curText ≠ [] then
      SegState.mk expected [] (st.segments ++ [Segment.mk st.curStart st.curText])
    else st
  SegState.mk expected (st1.curText ++ (" ".toList ++ e.text)) st1.segments

/-- Initial accumulator `current_segment = {"start": 0, "text": ""}`
(src/app.py line 38). -/
def segInit : SegState := SegState.mk 0 [] []

/-- Embedding of `fetch_transcript` (src/app.py lines 33-58) past the provider
call: run the accumulation loop over the fragments, flush the trailing
accumulator if its text is non-empty, and strip every segment's text. -/
def fetch_transcript (frags : List Fragment) : List Segment :=
  let st := frags.foldl segStep segInit
  let segs :=
    if st.curText ≠ [] then st.segments ++ [Segment.mk st.curStart st.curText]
    else st.segments
  segs.map (fun s => Segment.mk s.start (pstrip s.text))

/-- Accumulator-based splitting of a character list into maximal runs of
non-whitespace characters: the word sequence of a string, as in Python
`str.split()` with no argument. -/
def wordsAux : List Char → List Char → List (List Char)
  | acc, [] => if acc = [] then [] else [acc.reverse]
  | acc, c :: cs =>
    if isSp c then
      if acc = [] then wordsAux [] cs else acc.reverse :: wordsAux [] cs
    else wordsAux (c :: acc) cs

/-- The sequence of whitespace-separated words of a string. -/
def words (s : List Char) : List (List Char) := wordsAux [] s

theorem wordsAux_append_sp (sp : Char) (hsp : isSp sp = true) :
    ∀ (xs : List Char) (acc ys : List Char),
      wordsAux acc (xs ++ sp :: ys) = wordsAux acc xs ++ wordsAux [] ys := by
  intro xs
  induction xs with
  | nil =>
    intro acc ys
    by_cases h : acc = [] <;> simp [wordsAux, hsp, h]
  | cons x xs ih =>
    intro acc ys
    by_cases hx : isSp x
    · by_cases h : acc = [] <;> simp [wordsAux, hx, h, ih]
    · simp [wordsAux, hx, ih]

theorem words_append_sp (sp : Char) (hsp : isSp sp = true) (a b : List Char) :
    words (a ++ sp :: b) = words a ++ words b :=
  wordsAux_append_sp sp hsp a [] b

theorem wordsAux_all_sp :
    ∀ (ys : List Char) (acc : List Char), (∀ c ∈ ys, isSp c = true) →
      wordsAux acc ys = wordsAux acc [] := by
  intro ys
  induction ys with
  | nil => intro acc _; rfl
  | cons c cs ih =>
    intro acc h
    have hc : isSp c = true := h c (List.mem_cons_self c cs)
    have hcs : ∀ x ∈ cs, isSp x = true := fun x hx => h x (List.mem_cons_of_mem c hx)
    by_cases hacc : acc = []
    · simp [wordsAux, hc, hacc, ih [] hcs]
    · simp [wordsAux, hc, hacc, ih [] hcs]

theorem wordsAux_append_all_sp :
    ∀ (xs : List Char) (acc ys : List Char), (∀ c ∈ ys, isSp c = true) →
      wordsAux acc (xs ++ ys) = wordsAux acc xs := by
  intro xs
  induction xs with
  | nil =>
    intro acc ys h
    exact wordsAux_all_sp ys acc h
  | cons x xs ih =>
    intro acc ys h
    by_cases hx : isSp x
    · by_cases hacc : acc = [] <;> simp [wordsAux, hx, hacc, ih _ _ h]
    · simp [wordsAux, hx, ih _ _ h]

theorem words_stripLead (t : List Char) : words (stripLead t) = words t := by
  induction t with
  | nil => rfl
  | cons c cs ih =>
    by_cases hc : isSp c
    · have h1 : stripLead (c :: cs) = stripLead cs := by
        simp [stripLead, List.dropWhile_cons, hc]
      rw [h1, ih]
      simp [words, wordsAux, hc]
    · simp [stripLead, List.dropWhile_cons, hc]

theorem stripTrail_decomposition (t : List Char) :
    t = stripTrail t ++ (t.reverse.takeWhile isSp).reverse := by
  conv_lhs => rw [← List.reverse_reverse t, ← List.takeWhile_append_dropWhile isSp t.reverse]
  rw [List.reverse_append]
  rfl

theorem words_stripTrail (t : List Char) : words (stripTrail t) = words t := by
  conv_rhs => rw [stripTrail_decomposition t]
  rw [words, words, wordsAux_append_all_sp]
  intro c hc
  rw [List.mem_reverse] at hc
  exact List.mem_takeWhile_imp hc

theorem words_pstrip (t : List Char) : words (pstrip t) = words t := by
  rw [pstrip, words_stripTrail, words_stripLead]

/-- All words held by a loop state: the words of the flushed segments followed
by the words of the accumulator text. -/
def segWords (st : SegState) : List (List Char) :=
  (st.segments.map (fun s => words s.text)).flatten ++ words st.curText

theorem words_sp_cons (sp : Char) (hsp : isSp sp = true) (b : List Char) :
    words (sp :: b) = words b := by
  have h := words_append_sp sp hsp [] b
  simpa [words, wordsAux] using h

theorem segStep_words (st : SegState) (e : Fragment) :
    segWords (segStep st e) = segWords st ++ words e.text := by
  have hsp : isSp ' ' = true := by decide
  have hspace : (" ".toList ++ e.text) = ' ' :: e.text := rfl
  simp only [segWords, segStep, hspace]
  by_cases h : bucketStart e.start ≠ st.curStart ∧ st.curText ≠ []
  · rw [if_pos h]
    simp [List.map_append, List.flatten_append, words_sp_cons ' ' hsp, List.append_assoc]
  · rw [if_neg h]
    rw [words_append_sp ' ' hsp st.curText e.text]
    simp [List.append_assoc]

theorem foldl_segStep_words :
    ∀ (frags : List Fragment) (st : SegState),
      segWords (frags.foldl segStep st) =
        segWords st ++ (frags.map (fun f => words f.text)).flatten := by
  intro frags
  induction frags with
  | nil => intro st; simp
  | cons f fs ih =>
    intro st
    simp only [List.foldl_cons, List.map_cons, List.flatten_cons]
    rw [ih (segStep st f), segStep_words st f, List.append_assoc]

theorem fetch_transcript_words (frags : List Fragment) :
    ((fetch_transcript frags).map (fun s => words s.text)).flatten =
      (frags.map (fun f => words f.text)).flatten := by
  have hfold := foldl_segStep_words frags segInit
  have hinit : segWords segInit = [] := by rfl
  rw [hinit, List.nil_append] at hfold
  unfold fetch_transcript
  rw [List.map_map]
  have hcomp :
      ((fun s => words s.text) ∘ fun s => Segment.mk s.start (pstrip s.text)) =
        fun s : Segment => words s.text := by
    funext s
    simp [Function.comp, words_pstrip]
  rw [hcomp]
  by_cases h : (frags.foldl segStep segInit).curText ≠ []
  · rw [if_pos h, List.map_append, List.flatten_append, ← hfold]
    simp [segWords]
  · rw [if_neg h, ← hfold]
    push_neg at h
    simp [segWords, h, words, wordsAux]

/-- Claim C2: for every non-empty fragment sequence, the words of the segment
texts produced by the segmenter, in order, are exactly the words of the input
fragment texts, in order (whitespace differences ignored by comparing word
sequences). -/
theorem C2_words_preserved (frags : List Fragment) (hne : frags ≠ []) :
    ((fetch_transcript frags).map (fun s => words s.text)).flatten =
      (frags.map (fun f => words f.text)).flatten :=
  fetch_transcript_words frags

/-- Witness for C2 at the concrete input `[(0, "ab cd"), (40, "ef")]`. -/
theorem C2_words_preserved_witness :
    ([Fragment.mk 0 "ab cd".toList, Fragment.mk 40 "ef".toList] ≠ []) ∧
      (((fetch_transcript [Fragment.mk 0 "ab cd".toList, Fragment.mk 40 "ef".toList]).map
            (fun s => words s.text)).flatten =
        (([Fragment.mk 0 "ab cd".toList, Fragment.mk 40 "ef".toList]).map
            (fun f => words f.text)).flatten) :=
  ⟨by decide, C2_words_preserved _ (by decide)⟩

/-- Claim C1: segmenting the fragments `[(0, "hello world"), (15, "foo"),
(35, "hello again")]` with bucket width 30 yields exactly the segments
`{start 0, text "hello world foo"}` and `{start 30, text "hello again"}`,
in that order. -/
theorem C1_concrete_segmentation :
    fetch_transcript
        [Fragment.mk 0 "hello world".toList, Fragment.mk 15 "foo".toList,
          Fragment.mk 35 "hello again".toList] =
      [Segment.mk 0 "hello world foo".toList, Segment.mk 30 "hello again".toList] := by
  decide

theorem bucketStart_mono {a b : ℚ} (h : a ≤ b) : bucketStart a ≤ bucketStart b := by
  rw [bucketStart_eq_floor, bucketStart_eq_floor]
  have hf : ⌊a / 30⌋ ≤ ⌊b / 30⌋ :=
    Int.floor_mono ((div_le_div_right (by norm_num : (0:ℚ) < 30)).mpr h)
  exact mul_le_mul_of_nonneg_right hf (by norm_num)

theorem bucketStart_nonneg {q : ℚ} (h : 0 ≤ q) : 0 ≤ bucketStart q := by
  rw [bucketStart_eq_floor]
  have hf : (0 : Int) ≤ ⌊q / 30⌋ := Int.floor_nonneg.mpr (div_nonneg h (by norm_num))
  exact mul_nonneg hf (by norm_num)

theorem bucketStart_dvd (q : ℚ) : (30 : Int) ∣ bucketStart q := by
  rw [bucketStart_eq_floor]
  exact dvd_mul_left 30 ⌊q / 30⌋

/-- Invariant of the segmentation loop: flushed starts are strictly increasing
non-negative multiples of 30, all below the accumulator start, which is itself
a non-negative multiple of 30; and an empty accumulator text means nothing was
flushed yet. -/
def InvP (st : SegState) : Prop :=
  List.Pairwise (· < ·) (st.segments.map Segment.start) ∧
  (∀ s ∈ st.segments, s.start < st.curStart) ∧
  (∀ s ∈ st.segments, 0 ≤ s.start ∧ (30 : Int) ∣ s.start) ∧
  0 ≤ st.curStart ∧ (30 : Int) ∣ st.curStart ∧
  (st.curText = [] → st.segments = [])

theorem segStep_curStart (st : SegState) (e : Fragment) :
    (segStep st e).curStart = bucketStart e.start := rfl

theorem segStep_inv (st : SegState) (e : Fragment) (hinv : InvP st)
    (he0 : 0 ≤ e.start) (hle : st.curStart ≤ bucketStart e.start) :
    InvP (segStep st e) := by
  obtain ⟨hpw, hlt, hprops, hcs0, hcsd, hemp⟩ := hinv
  simp only [segStep, InvP]
  by_cases h : bucketStart e.start ≠ st.curStart ∧ st.curText ≠ []
  · rw [if_pos h]
    have hstrict : st.curStart < bucketStart e.start := lt_of_le_of_ne hle (Ne.symm h.1)
    refine ⟨?_, ?_, ?_, ?_, ?_, ?_⟩
    · rw [List.map_append, List.pairwise_append]
      refine ⟨hpw, List.pairwise_singleton _ _, ?_⟩
      intro x hx y hy
      rw [List.mem_map] at hx
      obtain ⟨s, hs, rfl⟩ := hx
      rw [List.map_singleton, List.mem_singleton] at hy
      subst hy
      exact hlt s hs
    · intro s hs
      rcases List.mem_append.mp hs with hs | hs
      · exact lt_trans (hlt s hs) hstrict
      · rw [List.mem_singleton] at hs
        subst hs
        exact hstrict
    · intro s hs
      rcases List.mem_append.mp hs with hs | hs
      · exact hprops s hs
      · rw [List.mem_singleton] at hs
        subst hs
        exact ⟨hcs0, hcsd⟩
    · exact le_trans hcs0 hle
    · exact bucketStart_dvd e.start
    · intro habs
      exact absurd habs (by simp)
  · rw [if_neg h]
    by_cases heq : bucketStart e.start = st.curStart
    · refine ⟨hpw, ?_, hprops, ?_, ?_, ?_⟩
      · intro s hs
        rw [heq]
        exact hlt s hs
      · rw [heq] at hle ⊢
        exact hcs0
      · rw [heq]
        exact hcsd
      · intro habs
        exact absurd habs (by simp)
    · have htext : st.curText = [] := by
        by_contra htext
        exact h ⟨heq, htext⟩
      have hsegs : st.segments = [] := hemp htext
      refine ⟨?_, ?_, ?_, ?_, ?_, ?_⟩
      · rw [hsegs]; exact List.Pairwise.nil
      · intro s hs; rw [hsegs] at hs; exact absurd hs (List.not_mem_nil s)
      · intro s hs; rw [hsegs] at hs; exact absurd hs (List.not_mem_nil s)
      · exact le_trans hcs0 hle
      · exact bucketStart_dvd e.start
      · intro _; rw [hsegs]

theorem foldl_segStep_inv :
    ∀ (frags : List Fragment) (st : SegState), InvP st →
      (∀ f ∈ frags, 0 ≤ f.start) →
      (∀ f ∈ frags, st.curStart ≤ bucketStart f.start) →
      frags.Pairwise (fun a b => a.start ≤ b.start) →
      InvP (frags.foldl segStep st) := by
  intro frags
  induction frags with
  | nil => intro st h _ _ _; exact h
  | cons f fs ih =>
    intro st hinv h0 hle hpw
    rw [List.foldl_cons]
    rcases List.pairwise_cons.mp hpw with ⟨hf, hpw'⟩
    apply ih
    · exact segStep_inv st f hinv (h0 f (List.mem_cons_self f fs))
        (hle f (List.mem_cons_self f fs))
    · intro g hg
      exact h0 g (List.mem_cons_of_mem f hg)
    · intro g hg
      rw [segStep_curStart]
      exact bucketStart_mono (hf g hg)
    · exact hpw'

/-- Claim C3, amended: for every fragment sequence whose start timestamps are
non-negative and non-decreasing, every segment start in the segmenter's output
is a non-negative multiple of 30 and the starts are strictly increasing. -/
theorem C3_starts_multiples_increasing (frags : List Fragment)
    (hsorted : frags.Pairwise (fun a b => a.start ≤ b.start))
    (hnn : ∀ f ∈ frags, 0 ≤ f.start) :
    (∀ s ∈ fetch_transcript frags, 0 ≤ s.start ∧ (30 : Int) ∣ s.start) ∧
      List.Pairwise (· < ·) ((fetch_transcript frags).map Segment.start) := by
  have hinit : InvP segInit :=
    ⟨List.Pairwise.nil, by simp [segInit], by simp [segInit], le_refl 0, dvd_zero 30,
      fun _ => rfl⟩
  have hinv := foldl_segStep_inv frags segInit hinit hnn
    (fun f hf => by
      show (0 : Int) ≤ bucketStart f.start
      exact bucketStart_nonneg (hnn f hf))
    hsorted
  obtain ⟨hpw, hlt, hprops, hcs0, hcsd, _⟩ := hinv
  simp only [fetch_transcript]
  by_cases h : (frags.foldl segStep segInit).curText ≠ []
  · rw [if_pos h]
    constructor
    · intro s hs
      rw [List.mem_map] at hs
      obtain ⟨t, ht, rfl⟩ := hs
      rcases List.mem_append.mp ht with ht | ht
      · exact hprops t ht
      · rw [List.mem_singleton] at ht
        subst ht
        exact ⟨hcs0, hcsd⟩
    · rw [List.map_map]
      have hcomp :
          (Segment.start ∘ fun s : Segment => Segment.mk s.start (pstrip s.text)) =
            Segment.start := by
        funext s
        rfl
      rw [hcomp, List.map_append, List.pairwise_append]
      refine ⟨hpw, List.pairwise_singleton _ _, ?_⟩
      intro x hx y hy
      rw [List.mem_map] at hx
      obtain ⟨s, hs, rfl⟩ := hx
      rw [List.map_singleton, List.mem_singleton] at hy
      subst hy
      exact hlt s hs
  · rw [if_neg h]
    constructor
    · intro s hs
      rw [List.mem_map] at hs
      obtain ⟨t, ht, rfl⟩ := hs
      exact hprops t ht
    · rw [List.map_map]
      have hcomp :
          (Segment.start ∘ fun s : Segment => Segment.mk s.start (pstrip s.text)) =
            Segment.start := by
        funext s
        rfl
      rw [hcomp]
      exact hpw

/-- Witness for C3 (amended) at the concrete sorted input
`[(0, "a"), (40, "b")]`. -/
theorem C3_starts_multiples_increasing_witness :
    ([Fragment.mk 0 "a".toList, Fragment.mk 40 "b".toList].Pairwise
        (fun a b => a.start ≤ b.start)) ∧
      ((∀ s ∈ fetch_transcript [Fragment.mk 0 "a".toList, Fragment.mk 40 "b".toList],
          0 ≤ s.start ∧ (30 : Int) ∣ s.start) ∧
        List.Pairwise (· < ·)
          ((fetch_transcript [Fragment.mk 0 "a".toList, Fragment.mk 40 "b".toList]).map
            Segment.start)) :=
  ⟨by decide, C3_starts_multiples_increasing _ (by decide) (by decide)⟩

/-- Counterexample to C3 as stated: for the out-of-order fragment sequence
`[(35, "a"), (0, "b")]` the segmenter emits starts `[30, 0]`, which are not
strictly increasing. -/
theorem C3_counterexample :
    ¬ List.Pairwise (· < ·)
        ((fetch_transcript [Fragment.mk 35 "a".toList, Fragment.mk 0 "b".toList]).map
          Segment.start) := by
  decide

/-- Claim C4, amended: a single fragment is always placed in the bucket
`30 * ⌊start / 30⌋`; for start zero this is bucket 0, but for a strictly
negative start it is a negative bucket, not bucket 0. -/
theorem C4_single_fragment_bucket (s : ℚ) (t : List Char) (hle : s ≤ 0) :
    (fetch_transcript [Fragment.mk s t]).map Segment.start = [bucketStart s] ∧
      (s = 0 → bucketStart s = 0) := by
  constructor
  · simp [fetch_transcript, segStep, segInit]
  · intro h0
    subst h0
    decide

/-- Witness for C4 (amended) at the concrete input `(-5, "x")`. -/
theorem C4_single_fragment_bucket_witness :
    ((-5 : ℚ) ≤ 0) ∧
      ((fetch_transcript [Fragment.mk (-5) "x".toList]).map Segment.start =
          [bucketStart (-5)] ∧
        ((-5 : ℚ) = 0 → bucketStart (-5) = 0)) :=
  ⟨by decide, C4_single_fragment_bucket (-5) "x".toList (by decide)⟩

/-- Counterexample to C4 as stated: the single fragment `(-5, "x")` has a
negative start but is placed in bucket `-30`, not bucket 0. -/
theorem C4_counterexample :
    (fetch_transcript [Fragment.mk (-5) "x".toList]).map Segment.start = [-30] ∧
      (-30 : Int) ≠ 0 := by
  decide

/-- Embedding of `format_time` (src/app.py lines 61-65): `mm:ss` with the
minutes unbounded and the seconds zero-padded to two digits.  Python `//` and
`%` on a positive modulus are Euclidean division and remainder. -/
def format_time (seconds : Int) : List Char :=
  let m := Int.ediv seconds 60
  let s := Int.emod seconds 60
  (toString m ++ ":" ++ (if s < 10 then "0" ++ toString s else toString s)).toList

/-- One entry of the parsed semantic-ranking response `parsed["results"]`
(src/app.py lines 100-104): an `index`, a `score` and a `reason` (the
`item.get("reason", "")` default collapses an absent reason to `""`). -/
structure RankEntry where
  index : Int
  score : Int
  reason : List Char
deriving DecidableEq, Repr

/-- One element of the `results` list built by `search_segments`
(src/app.py lines 108-115). -/
structure ScoredResult where
  index : Int
  start : Int
  time : List Char
  text : List Char
  score : Int
  reason : List Char
deriving DecidableEq, Repr

/-- Validity test for a response index, the negation of the skip condition
`idx < 0 or idx >= len(segments)` (src/app.py line 105). -/
def validIndex (segs : List Segment) (item : RankEntry) : Bool :=
  decide (0 ≤ item.index ∧ item.index < (segs.length : Int))

/-- Placeholder used by `List.getD`; a valid index never reaches it. -/
def defaultSegment : Segment := Segment.mk 0 []

/-- The result record appended for a valid entry (src/app.py lines 107-115). -/
def mkResult (segs : List Segment) (item : RankEntry) : ScoredResult :=
  let seg := segs.getD item.index.toNat defaultSegment
  ScoredResult.mk item.index seg.start (format_time seg.start) seg.text item.score
    item.reason

/-- The `for item in parsed["results"][:top_n]` loop of `search_segments`
(src/app.py lines 102-115), applied to an already-truncated entry list:
out-of-range indices are skipped, valid ones appended in response order. -/
def processEntries (segs : List Segment) (entries : List RankEntry) : List ScoredResult :=
  entries.foldl
    (fun acc item => if validIndex segs item then acc ++ [mkResult segs item] else acc) []

/-- Stable descending insertion by score: a new element goes after every
element of strictly greater score and before the rest. -/
def insertDesc (x : ScoredResult) : List ScoredResult → List ScoredResult
  | [] => [x]
  | y :: ys => if x.score < y.score then y :: insertDesc x ys else x :: y :: ys

/-- Stable sort descending by score, the embedding of
`results.sort(key=lambda x: x["score"], reverse=True)` (src/app.py line 117):
Python list sort is stable, and a stable sort's output is determined by its
key order, so this insertion sort computes the same list. -/
def sortDesc : List ScoredResult → List ScoredResult
  | [] => []
  | x :: xs => insertDesc x (sortDesc xs)

/-- Embedding of `search_segments` (src/app.py lines 71-118) from the parsed
provider response onward: truncate to `topN`, keep valid entries, sort by
descending score. -/
def search_segments (segs : List Segment) (parsed : List RankEntry) (topN : Nat) :
    List ScoredResult :=
  sortDesc (processEntries segs (parsed.take topN))

theorem processEntries_foldl_acc (segs : List Segment) :
    ∀ (es : List RankEntry) (acc : List ScoredResult),
      es.foldl
          (fun acc item =>
            if validIndex segs item then acc ++ [mkResult segs item] else acc) acc =
        acc ++ (es.filter (validIndex segs)).map (mkResult segs) := by
  intro es
  induction es with
  | nil => intro acc; simp
  | cons e es ih =>
    intro acc
    rw [List.foldl_cons, List.filter_cons]
    by_cases h : validIndex segs e
    · rw [if_pos h, if_pos h, ih, List.map_cons, List.append_assoc]
      rfl
    · rw [if_neg h, if_neg h, ih]

theorem processEntries_eq (segs : List Segment) (es : List RankEntry) :
    processEntries segs es = (es.filter (validIndex segs)).map (mkResult segs) := by
  rw [processEntries, processEntries_foldl_acc segs es [], List.nil_append]

/-- Claim C5: an entry of the parsed response whose index is out of range for
the segment list is silently dropped by the processing loop — the loop over a
list containing it returns exactly what it returns with that entry removed,
and every other entry is still processed. -/
theorem C5_invalid_entry_dropped (segs : List Segment) (xs ys : List RankEntry)
    (e : RankEntry) (h : validIndex segs e = false) :
    processEntries segs (xs ++ e :: ys) = processEntries segs (xs ++ ys) := by
  rw [processEntries_eq, processEntries_eq, List.filter_append, List.filter_append,
    List.filter_cons, h]
  simp

/-- Witness for C5: the out-of-range index 5 over a one-segment list is
dropped while the surrounding valid entries survive. -/
theorem C5_invalid_entry_dropped_witness :
    (validIndex [Segment.mk 0 "a".toList] (RankEntry.mk 5 7 []) = false) ∧
      processEntries [Segment.mk 0 "a".toList]
          ([RankEntry.mk 0 9 []] ++ RankEntry.mk 5 7 [] :: [RankEntry.mk 0 3 []]) =
        processEntries [Segment.mk 0 "a".toList]
          ([RankEntry.mk 0 9 []] ++ [RankEntry.mk 0 3 []]) :=
  ⟨by decide, C5_invalid_entry_dropped _ _ _ _ (by decide)⟩

theorem mem_insertDesc (x : ScoredResult) :
    ∀ (l : List ScoredResult) (z : ScoredResult), z ∈ insertDesc x l ↔ z = x ∨ z ∈ l := by
  intro l
  induction l with
  | nil => intro z; simp [insertDesc]
  | cons y ys ih =>
    intro z
    by_cases h : x.score < y.score
    · rw [insertDesc, if_pos h, List.mem_cons, ih z, List.mem_cons]
      tauto
    · rw [insertDesc, if_neg h, List.mem_cons, List.mem_cons]

theorem pairwise_insertDesc (x : ScoredResult) :
    ∀ (l : List ScoredResult),
      List.Pairwise (fun a b => b.score ≤ a.score) l →
      List.Pairwise (fun a b => b.score ≤ a.score) (insertDesc x l) := by
  intro l
  induction l with
  | nil => intro _; simp [insertDesc]
  | cons y ys ih =>
    intro h
    rcases List.pairwise_cons.mp h with ⟨hy, hys⟩
    by_cases hxy : x.score < y.score
    · rw [insertDesc, if_pos hxy]
      rw [List.pairwise_cons]
      refine ⟨?_, ih hys⟩
      intro z hz
      rcases (mem_insertDesc x ys z).mp hz with hz | hz
      · subst hz
        exact le_of_lt hxy
      · exact hy z hz
    · rw [insertDesc, if_neg hxy]
      rw [List.pairwise_cons]
      refine ⟨?_, h⟩
      intro z hz
      rcases List.mem_cons.mp hz with hz | hz
      · subst hz
        exact not_lt.mp hxy
      · exact le_trans (hy z hz) (not_lt.mp hxy)

theorem pairwise_sortDesc :
    ∀ l : List ScoredResult, List.Pairwise (fun a b => b.score ≤ a.score) (sortDesc l) := by
  intro l
  induction l with
  | nil => simp [sortDesc]
  | cons x xs ih => exact pairwise_insertDesc x (sortDesc xs) ih

theorem filter_insertDesc (x : ScoredResult) (s : Int) :
    ∀ l : List ScoredResult,
      (insertDesc x l).filter (fun r => r.score == s) =
        if x.score == s then x :: l.filter (fun r => r.score == s)
        else l.filter (fun r => r.score == s) := by
  intro l
  induction l with
  | nil =>
    rw [insertDesc]
    by_cases hx : x.score == s <;> simp [List.filter, hx]
  | cons y ys ih =>
    by_cases hxy : x.score < y.score
    · by_cases hy : y.score == s
      · by_cases hx : x.score == s
        · exfalso
          rw [beq_iff_eq] at hx hy
          rw [hx, hy] at hxy
          exact lt_irrefl s hxy
        · simp [insertDesc, hxy, List.filter_cons, hy, hx, ih]
      · by_cases hx : x.score == s <;>
          simp [insertDesc, hxy, List.filter_cons, hy, hx, ih]
    · by_cases hx : x.score == s <;>
        simp [insertDesc, hxy, List.filter_cons, hx]

theorem filter_sortDesc (s : Int) :
    ∀ l : List ScoredResult,
      (sortDesc l).filter (fun r => r.score == s) = l.filter (fun r => r.score == s) := by
  intro l
  induction l with
  | nil => rfl
  | cons x xs ih =>
    rw [sortDesc, filter_insertDesc, ih, List.filter_cons]

/-- Claim C7: the semantic ranker's output is sorted in descending score
order, and within one score the validated entries keep the relative order
they had in the provider's response (the processed list is exactly the valid
entries of the truncated response, in response order, and sorting preserves
each equal-score subsequence). -/
theorem C7_sort_desc_stable (segs : List Segment) (parsed : List RankEntry) (topN : Nat) :
    List.Pairwise (fun a b => b.score ≤ a.score) (search_segments segs parsed topN) ∧
      (∀ s : Int,
        (search_segments segs parsed topN).filter (fun r => r.score == s) =
          (processEntries segs (parsed.take topN)).filter (fun r => r.score == s)) ∧
      processEntries segs (parsed.take topN) =
        ((parsed.take topN).filter (validIndex segs)).map (mkResult segs) :=
  ⟨pairwise_sortDesc _, fun s => filter_sortDesc s _, processEntries_eq segs _⟩

theorem length_insertDesc (x : ScoredResult) :
    ∀ l : List ScoredResult, (insertDesc x l).length = l.length + 1 := by
  intro l
  induction l with
  | nil => rfl
  | cons y ys ih =>
    by_cases h : x.score < y.score
    · rw [insertDesc, if_pos h, List.length_cons, ih, List.length_cons]
    · rw [insertDesc, if_neg h, List.length_cons, List.length_cons]

theorem length_sortDesc : ∀ l : List ScoredResult, (sortDesc l).length = l.length := by
  intro l
  induction l with
  | nil => rfl
  | cons x xs ih =>
    rw [sortDesc, length_insertDesc, ih, List.length_cons]

/-- Claim C10: the semantic ranker truncates the parsed response to its first
`topN` entries before validating indices, so it returns at most `topN`
results, and any out-of-range entry among those first `topN` strictly lowers
the returned count below `topN` (even if valid entries exist later in the
response, as the witness shows). -/
theorem C10_truncate_before_validate (segs : List Segment) (parsed : List RankEntry)
    (topN : Nat) :
    (search_segments segs parsed topN).length ≤ topN ∧
      ((∃ e ∈ parsed.take topN, validIndex segs e = false) →
        (search_segments segs parsed topN).length < topN) := by
  have hlen : (search_segments segs parsed topN).length =
      ((parsed.take topN).filter (validIndex segs)).length := by
    rw [search_segments, length_sortDesc, processEntries_eq, List.length_map]
  constructor
  · rw [hlen]
    exact le_trans (List.length_filter_le _ _) (List.length_take_le topN parsed)
  · intro ⟨e, he, hv⟩
    rw [hlen]
    have hstrict : ((parsed.take topN).filter (validIndex segs)).length <
        (parsed.take topN).length :=
      List.length_filter_lt_length_iff_exists.mpr ⟨e, he, by simp [hv]⟩
    exact lt_of_lt_of_le hstrict (List.length_take_le topN parsed)

/-- Witness for C10: one segment, `topN = 2`, and a response whose first entry
is out of range — only one result comes back although a third, valid entry
exists past the truncation point. -/
theorem C10_truncate_before_validate_witness :
    (∃ e ∈ ([RankEntry.mk 9 5 [], RankEntry.mk 0 5 [], RankEntry.mk 0 4 []].take 2),
        validIndex [Segment.mk 0 "a".toList] e = false) ∧
      (search_segments [Segment.mk 0 "a".toList]
          [RankEntry.mk 9 5 [], RankEntry.mk 0 5 [], RankEntry.mk 0 4 []] 2).length < 2 :=
  ⟨⟨RankEntry.mk 9 5 [], by decide, by decide⟩,
    (C10_truncate_before_validate [Segment.mk 0 "a".toList]
        [RankEntry.mk 9 5 [], RankEntry.mk 0 5 [], RankEntry.mk 0 4 []] 2).2
      ⟨RankEntry.mk 9 5 [], by decide, by decide⟩⟩

/-- The markdown code-fence marker checked by `raw.startswith("` + "```" + `")`
(src/app.py line 97). -/
def fence : List Char := "```".toList

/-- Embedding of `re.sub(r"^ fence (json)? ws*", "", raw)` (src/app.py line
98), applied when `raw` is known to start with the fence: drop the three fence
characters, a following `json` tag if present, and any following whitespace. -/
def stripLeadFence (s : List Char) : List Char :=
  let s1 := s.drop 3
  let s2 := if ("json".toList).isPrefixOf s1 then s1.drop 4 else s1
  s2.dropWhile isSp

/-- Embedding of `re.sub(r"ws* fence $", "", raw)` (src/app.py line 99) on a
string with no trailing whitespace: remove a trailing fence and the
whitespace just before it, if the string ends with a fence. -/
def stripTrailFence (s : List Char) : List Char :=
  if fence.isSuffixOf s then stripTrail (s.take (s.length - 3)) else s

/-- The response normalization of `search_segments` (src/app.py lines 95-99):
strip the raw text, and if it starts with a code fence, remove the leading and
trailing fence markers. -/
def normalizeResponse (s : List Char) : List Char :=
  let raw := pstrip s
  if fence.isPrefixOf raw then stripTrailFence (stripLeadFence raw) else raw

/-- A payload wrapped in a fenced code block with language tag `lang`
(either `json` or empty). -/
def wrapFence (lang P : List Char) : List Char :=
  fence ++ (lang ++ ('\n' :: (P ++ ('\n' :: fence))))

theorem dropWhile_eq_self_of_head (m : List Char)
    (h : (m.head?.all fun c => !isSp c) = true) : m.dropWhile isSp = m := by
  cases m with
  | nil => rfl
  | cons c cs =>
    simp only [List.head?_cons, Option.all_some, Bool.not_eq_true'] at h
    rw [List.dropWhile_cons, if_neg (by simp [h])]

theorem stripTrail_eq_self_of_getLast (m : List Char)
    (h : (m.getLast?.all fun c => !isSp c) = true) : stripTrail m = m := by
  rw [stripTrail, dropWhile_eq_self_of_head, List.reverse_reverse]
  rw [List.head?_reverse]
  exact h

theorem pstrip_eq_self (m : List Char)
    (h1 : (m.head?.all fun c => !isSp c) = true)
    (h2 : (m.getLast?.all fun c => !isSp c) = true) : pstrip m = m := by
  rw [pstrip, stripLead, dropWhile_eq_self_of_head m h1, stripTrail_eq_self_of_getLast m h2]

theorem option_or_of_isSome {α : Type} (a b : Option α) (h : a.isSome = true) :
    a.or b = a := by
  cases a with
  | none => simp at h
  | some x => rfl

theorem isPrefixOf_false_of_head (a s : List Char) (ha : a ≠ [])
    (h : a.head? ≠ s.head?) : a.isPrefixOf s = false := by
  cases a with
  | nil => exact absurd rfl ha
  | cons c cs =>
    cases s with
    | nil => rfl
    | cons d ds =>
      simp only [List.head?_cons, ne_eq, Option.some.injEq] at h
      simp [List.isPrefixOf, h]

theorem stripTrail_append_all_sp (l m : List Char) (h : ∀ c ∈ m, isSp c = true) :
    stripTrail (l ++ m) = stripTrail l := by
  rw [stripTrail, stripTrail, List.reverse_append, List.dropWhile_append,
    if_pos]
  rw [List.isEmpty_iff, List.dropWhile_eq_nil_iff]
  intro x hx
  rw [List.mem_reverse] at hx
  exact h x hx

theorem pstrip_of_stripLead_nil (P : List Char) (h : stripLead P = []) :
    pstrip P = [] := by
  rw [pstrip, h]
  rfl

theorem stripTrailFence_append (A : List Char) :
    stripTrailFence (A ++ '\n' :: fence) = stripTrail A := by
  have hw : A ++ '\n' :: fence = (A ++ ['\n']) ++ fence := by
    simp
  rw [stripTrailFence, if_pos, hw]
  · have hlen : ((A ++ ['\n']) ++ fence).length - 3 = (A ++ ['\n']).length := by
      simp only [List.length_append, List.length_cons, List.length_nil,
        show fence.length = 3 from rfl]
      omega
    rw [hlen, List.take_left]
    exact stripTrail_append_all_sp A ['\n'] (by decide)
  · rw [hw]
    exact List.isSuffixOf_iff_suffix.mpr (List.suffix_append _ _)

theorem dropWhile_payload_tail (P : List Char) :
    List.dropWhile isSp (P ++ '\n' :: fence) =
      if (P.dropWhile isSp).isEmpty then fence
      else P.dropWhile isSp ++ '\n' :: fence := by
  rw [List.dropWhile_append]
  have htail : List.dropWhile isSp ('\n' :: fence) = fence := by
    rw [List.dropWhile_cons, if_pos (by decide)]
    exact dropWhile_eq_self_of_head fence (by decide)
  rw [htail]

theorem stripLeadFence_wrap (lang P : List Char)
    (hlang : lang = "json".toList ∨ lang = []) :
    stripLeadFence (wrapFence lang P) = List.dropWhile isSp (P ++ '\n' :: fence) := by
  have hdrop3 : (wrapFence lang P).drop 3 = lang ++ ('\n' :: (P ++ ('\n' :: fence))) := by
    rw [wrapFence, show (3 : Nat) = fence.length from rfl, List.drop_left]
  rcases hlang with h | h
  · subst h
    rw [stripLeadFence, hdrop3, if_pos, show (4 : Nat) = ("json".toList).length from rfl,
      List.drop_left]
    · rw [List.dropWhile_cons, if_pos (by decide)]
    · exact List.isPrefixOf_iff_prefix.mpr (List.prefix_append _ _)
  · subst h
    rw [stripLeadFence, hdrop3, List.nil_append, if_neg]
    · rw [List.dropWhile_cons, if_pos (by decide)]
    · rw [isPrefixOf_false_of_head _ _ (by decide) (by rw [List.head?_cons]; decide)]
      simp

theorem wrapFence_head (lang P : List Char) :
    (wrapFence lang P).head? = fence.head? :=
  List.head?_append_of_ne_nil fence (by decide)

theorem wrapFence_getLast (lang P : List Char) :
    (wrapFence lang P).getLast? = fence.getLast? := by
  have hw : wrapFence lang P = (fence ++ lang ++ ['\n'] ++ P ++ ['\n']) ++ fence := by
    simp [wrapFence]
  rw [hw, List.getLast?_append, option_or_of_isSome _ _ (by decide)]

theorem normalizeResponse_wrap (lang P : List Char)
    (hlang : lang = "json".toList ∨ lang = []) :
    normalizeResponse (wrapFence lang P) = pstrip P := by
  have hstrip : pstrip (wrapFence lang P) = wrapFence lang P :=
    pstrip_eq_self _ (by rw [wrapFence_head]; decide) (by rw [wrapFence_getLast]; decide)
  have hpre : fence.isPrefixOf (wrapFence lang P) = true :=
    List.isPrefixOf_iff_prefix.mpr (List.prefix_append _ _)
  simp only [normalizeResponse, hstrip]
  rw [if_pos hpre, stripLeadFence_wrap lang P hlang, dropWhile_payload_tail]
  by_cases h : (P.dropWhile isSp).isEmpty
  · rw [if_pos h]
    have hfence : stripTrailFence fence = [] := by decide
    rw [hfence, pstrip_of_stripLead_nil P (List.isEmpty_iff.mp h)]
  · rw [if_neg h, stripTrailFence_append]
    rfl

theorem normalizeResponse_not_fenced (P : List Char)
    (h : fence.isPrefixOf (pstrip P) = false) : normalizeResponse P = pstrip P := by
  simp only [normalizeResponse]
  rw [if_neg (by simp [h])]

/-- Claim C6: for any payload whose stripped form does not itself begin with a
code fence (true of any well-formed JSON object payload), parsing after
normalization sees the same text whether the payload arrives wrapped in a
fenced code block — with or without a `json` language tag — or unwrapped. -/
theorem C6_fenced_equals_unwrapped (P : List Char)
    (h : fence.isPrefixOf (pstrip P) = false) :
    normalizeResponse (wrapFence "json".toList P) = normalizeResponse P ∧
      normalizeResponse (wrapFence [] P) = normalizeResponse P := by
  rw [normalizeResponse_not_fenced P h, normalizeResponse_wrap _ _ (Or.inl rfl),
    normalizeResponse_wrap _ _ (Or.inr rfl)]
  exact ⟨rfl, rfl⟩

/-- Witness for C6 at the concrete JSON payload
`\x7b"results": []\x7d` (a results object with no entries). -/
theorem C6_fenced_equals_unwrapped_witness :
    (fence.isPrefixOf (pstrip "\x7b\"results\": []\x7d".toList) = false) ∧
      (normalizeResponse (wrapFence "json".toList "\x7b\"results\": []\x7d".toList) =
          normalizeResponse "\x7b\"results\": []\x7d".toList ∧
        normalizeResponse (wrapFence [] "\x7b\"results\": []\x7d".toList) =
          normalizeResponse "\x7b\"results\": []\x7d".toList) :=
  ⟨by decide, C6_fenced_equals_unwrapped _ (by decide)⟩

/-- The JSON responses `load_video` can produce (src/app.py lines 126-156):
the 400 error for an unrecognized URL, the 400 error wrapping the fetch
exception text, or the success payload (whose `segment_count` we retain). -/
inductive LoadResponse
  | invalidUrl
  | fetchError (msg : List Char)
  | ok (video_id : String) (segment_count : Nat)
deriving DecidableEq, Repr

/-- Embedding of the `/load` handler `load_video` (src/app.py lines 126-156).
The `videos_store` dict is an association list; `vidOpt` is the result of
`extract_video_id`, and `fetchResult` is the transcript provider's answer (its
fragments on success, the exception text on failure), so that the handler's
store update and response are functions of both. -/
def load_video (store : List (String × List Segment)) (vidOpt : Option String)
    (fetchResult : Except (List Char) (List Fragment)) :
    List (String × List Segment) × LoadResponse :=
  match vidOpt with
  | none => (store, LoadResponse.invalidUrl)
  | some vid =>
    match store.lookup vid with
    | some segs => (store, LoadResponse.ok vid segs.length)
    | none =>
      match fetchResult with
      | Except.error e => (store, LoadResponse.fetchError e)
      | Except.ok frags =>
        let segs := fetch_transcript frags
        ((vid, segs) :: store, LoadResponse.ok vid segs.length)

/-- Claim C8: when the transcript fetch fails for a video not yet in the
store, the error is reported and the store is left exactly as it was; and a
successful fetch installs the complete segment list in one step — so after
any load a video id either maps to its full segment list or is absent. -/
theorem C8_fetch_failure_leaves_store (store : List (String × List Segment))
    (vid : String) (e : List Char) (hnotin : store.lookup vid = none) :
    load_video store (some vid) (Except.error e) = (store, LoadResponse.fetchError e) ∧
      (∀ frags : List Fragment,
        load_video store (some vid) (Except.ok frags) =
          ((vid, fetch_transcript frags) :: store,
            LoadResponse.ok vid (fetch_transcript frags).length)) := by
  constructor
  · simp [load_video, hnotin]
  · intro frags
    simp [load_video, hnotin]

/-- Witness for C8 on the empty store and video id `vid1`. -/
theorem C8_fetch_failure_leaves_store_witness :
    (([] : List (String × List Segment)).lookup "vid1" = none) ∧
      (load_video [] (some "vid1") (Except.error "no captions".toList) =
          ([], LoadResponse.fetchError "no captions".toList) ∧
        (∀ frags : List Fragment,
          load_video [] (some "vid1") (Except.ok frags) =
            (("vid1", fetch_transcript frags) :: [],
              LoadResponse.ok "vid1" (fetch_transcript frags).length))) :=
  ⟨rfl, C8_fetch_failure_leaves_store [] "vid1" "no captions".toList rfl⟩

/-- Claim C9: loading a video that is already in the store returns the cached
segment count and leaves the store untouched, whatever the transcript
provider would answer — the result does not depend on `fetchResult` at all,
so the provider is never consulted and reloading is idempotent on the
store. -/
theorem C9_cached_load_idempotent (store : List (String × List Segment))
    (vid : String) (segs : List Segment) (hin : store.lookup vid = some segs)
    (fetchResult : Except (List Char) (List Fragment)) :
    load_video store (some vid) fetchResult = (store, LoadResponse.ok vid segs.length) := by
  simp [load_video, hin]

/-- Witness for C9 on a one-entry store, exercised with a provider failure
that the cached path never sees. -/
theorem C9_cached_load_idempotent_witness :
    (([("vid1", [Segment.mk 0 "a".toList])] :
        List (String × List Segment)).lookup "vid1" = some [Segment.mk 0 "a".toList]) ∧
      load_video [("vid1", [Segment.mk 0 "a".toList])] (some "vid1")
          (Except.error "boom".toList) =
        ([("vid1", [Segment.mk 0 "a".toList])], LoadResponse.ok "vid1" 1) :=
  ⟨by decide, C9_cached_load_idempotent _ "vid1" [Segment.mk 0 "a".toList] (by decide) _⟩

end MyTube
